import Mathlib

/-!
Verification of the `pcombinators` parser-combinator library
(`combinators.py`) against its specification.

The Python source is shallowly embedded: the mutable `ParseState` object is
modelled as an explicit state record threaded through every call (in CPython
every `parse` method returns the very state object it was handed, so the
in-place mutation is equivalent to explicit state passing).  Python's dynamic
result values (`None`, strings, floats, lists) are modelled by the inductive
type `Val`, with `Val.none` playing the role of Python's `None` failure
marker.  A raised exception is modelled by the `POut.err` outcome, which all
combinators propagate (no combinator has a `try` around an inner `parse`
call; only `_Transform` catches exceptions of its own transform function).
Python `float` values are modelled as exact rationals: the only floats the
library produces are `float(s)` for decimal-literal strings `s`, modelled by
`decimalToRat`, and negation/sign application, which is exact in IEEE
arithmetic as well, so rational equalities faithfully mirror the float
equalities the spec talks about.
-/

namespace PComb

/-- State of the parser going through the input: `combinators.py`,
class `ParseState`.  `_input` is the string (as a list of characters,
indexed by integer offsets exactly as Python indexes strings), `_index`
the current offset. -/
structure ParseState where
  input : List Char
  index : Nat
deriving DecidableEq, Repr

/-- Helper `ps(s)` from the source: a fresh state over a string. -/
def ps (s : String) : ParseState := ⟨s.data, 0⟩

/-- `ParseState.reset(ix)`: set the index. -/
def ParseState.reset (st : ParseState) (ix : Nat) : ParseState := ⟨st.input, ix⟩

/-- `ParseState.next()` advances the index by one (its return value, the
current character, is read via `peek?` by callers of this model). -/
def ParseState.advance (st : ParseState) : ParseState := ⟨st.input, st.index + 1⟩

/-- `ParseState.peek()`, guarded: `none` when the index is out of range
(Python would raise `IndexError`; every call site in the source guards
`peek`/`next` with `finished()`, which this option models). -/
def ParseState.peek? (st : ParseState) : Option Char := st.input[st.index]?

/-- `ParseState.remaining()`: the unconsumed suffix (empty when finished). -/
def ParseState.remainingStr (st : ParseState) : String :=
  String.mk (st.input.drop st.index)

/-- `ParseState.__repr__`: `ParseState({prefix}< {current} >{suffix})`
when not finished, `ParseState({input}<>)` otherwise. -/
def reprState (st : ParseState) : String :=
  if st.index < st.input.length then
    "ParseState(" ++ String.mk (st.input.take st.index) ++ "< "
      ++ String.singleton (st.input.getD st.index ' ') ++ " >"
      ++ String.mk (st.input.drop (st.index + 1)) ++ ")"
  else
    "ParseState(" ++ String.mk st.input ++ "<>)"

/-- Python result values flowing through the combinators.  `Val.none` is
Python's `None`, doubling as the parse-failure marker; `Val.num` models a
Python float by its exact rational value. -/
inductive Val : Type where
  | none : Val
  | str : String → Val
  | num : ℚ → Val
  | list : List Val → Val

mutual

/-- Boolean equality on `Val` (the nested inductive blocks deriving). -/
def Val.beq : Val → Val → Bool
  | Val.none, Val.none => true
  | Val.str a, Val.str b => decide (a = b)
  | Val.num a, Val.num b => decide (a = b)
  | Val.list a, Val.list b => Val.beqList a b
  | _, _ => false

/-- Boolean equality on lists of `Val`. -/
def Val.beqList : List Val → List Val → Bool
  | [], [] => true
  | x :: xs, y :: ys => Val.beq x y && Val.beqList xs ys
  | _, _ => false

end

mutual

theorem Val.beq_iff : ∀ a b : Val, Val.beq a b = true ↔ a = b
  | Val.none, Val.none => by simp [Val.beq]
  | Val.none, Val.str _ => by simp [Val.beq]
  | Val.none, Val.num _ => by simp [Val.beq]
  | Val.none, Val.list _ => by simp [Val.beq]
  | Val.str _, Val.none => by simp [Val.beq]
  | Val.str _, Val.str _ => by simp [Val.beq]
  | Val.str _, Val.num _ => by simp [Val.beq]
  | Val.str _, Val.list _ => by simp [Val.beq]
  | Val.num _, Val.none => by simp [Val.beq]
  | Val.num _, Val.str _ => by simp [Val.beq]
  | Val.num _, Val.num _ => by simp [Val.beq]
  | Val.num _, Val.list _ => by simp [Val.beq]
  | Val.list _, Val.none => by simp [Val.beq]
  | Val.list _, Val.str _ => by simp [Val.beq]
  | Val.list _, Val.num _ => by simp [Val.beq]
  | Val.list a, Val.list b => by simp [Val.beq, Val.beqList_iff a b]

theorem Val.beqList_iff : ∀ a b : List Val, Val.beqList a b = true ↔ a = b
  | [], [] => by simp [Val.beqList]
  | [], _ :: _ => by simp [Val.beqList]
  | _ :: _, [] => by simp [Val.beqList]
  | x :: xs, y :: ys => by
    simp [Val.beqList, Val.beq_iff x y, Val.beqList_iff xs ys]

end

instance : DecidableEq Val := fun a b => decidable_of_iff _ (Val.beq_iff a b)

/-- The `is None` test (structural, so that concrete runs of the parsers
reduce inside the kernel). -/
def Val.isNone : Val → Bool
  | Val.none => true
  | _ => false

theorem Val.isNone_iff : ∀ v : Val, v.isNone = true ↔ v = Val.none := by
  intro v
  cases v <;> simp [Val.isNone]

theorem Val.isNone_eq_false_iff : ∀ v : Val, v.isNone = false ↔ v ≠ Val.none := by
  intro v
  cases v <;> simp [Val.isNone]

/-- Outcome of one `parse` call: a returned Python value (`res`, possibly
`Val.none` for "no match") or a propagating exception (`err`). -/
inductive POut : Type where
  | res : Val → POut
  | err : String → POut
deriving DecidableEq

/-- The type of `parse` methods: they take the shared state and give back
the outcome together with the state object (which Python mutates in place
and returns). -/
def ParseFn : Type := ParseState → POut × ParseState

/-- `Util.extend_results(a, e)`: lists are spliced in, anything else is
appended. -/
def extendResults (a : List Val) (e : Val) : List Val :=
  match e with
  | Val.list l => a ++ l
  | x => a ++ [x]

/-- Value of a string of decimal digits, `'0'`–`'9'` each contributing via
its code point. -/
def digitsVal (l : List Char) : ℕ :=
  l.foldl (fun a c => 10 * a + (c.toNat - 48)) 0

/-- Unsigned part of the modelled `float()`: integer digits before an
optional `'.'`, fractional digits after it. -/
def decCore (l : List Char) : ℚ :=
  (digitsVal (l.takeWhile (fun c => c ≠ '.')) : ℚ)
    + (digitsVal ((l.dropWhile (fun c => c ≠ '.')).drop 1) : ℚ)
      / (10 : ℚ) ^ ((l.dropWhile (fun c => c ≠ '.')).drop 1).length

/-- Modelled Python `float(s)` for the decimal-literal shapes
`[-]ddd[.ddd]` that the library feeds it: the exact rational value of the
literal.  (Only such literals reach `float` in the source.) -/
def decimalToRat (s : String) : ℚ :=
  match s.data with
  | '-' :: rest => -(decCore rest)
  | l => decCore l

/- Leaf parsers -/

/-- Matching loop of `String.parse`: walk the expected characters while
they agree with the input, advancing the state; `true` means the whole
string matched (`i == len(s)`), with the state advanced past it; `false`
means a mismatch or end of input, with the state as far as it got
(the caller resets it). -/
def stringLoop : List Char → ParseState → Bool × ParseState
  | [], st => (true, st)
  | c :: cs, st =>
    match st.peek? with
    | some c' => if c' = c then stringLoop cs st.advance else (false, st)
    | Option.none => (false, st)

/-- `String` parser: consume a fixed string; result is that string; on any
mismatch the state is reset to the entry index and `None` is returned. -/
def StringP (s : String) : ParseFn := fun st =>
  match stringLoop s.data st with
  | (true, st') => (POut.res (Val.str s), st')
  | (false, st') => (POut.res Val.none, st'.reset st.index)

/-- `OneOf` parser: one character from the given set (Python builds a
`set(s)`; membership is the same as membership in the character list). -/
def OneOfP (s : List Char) : ParseFn := fun st =>
  match st.peek? with
  | some c =>
    if c ∈ s then (POut.res (Val.str (String.singleton c)), st.advance)
    else (POut.res Val.none, st)
  | Option.none => (POut.res Val.none, st)

/-- Outcome of `re.match(rx, remaining)` when it matches: `whole` is
`match.group(0)` (the matched prefix of `remaining`, so `match.span()` is
`(0, whole.length)`), `groups` is `match.groups()` (capture groups, `none`
for an unmatched group). -/
structure RxMatch where
  whole : String
  groups : List (Option String)

/-- A Python group value (`str` or `None`) as a `Val`. -/
def optStrToVal : Option String → Val
  | some s => Val.str s
  | Option.none => Val.none

/-- Result computation of `Regex.parse` on a match: more than one group
gives the list of groups, exactly one gives that group, otherwise the
whole match. -/
def regexResult (m : RxMatch) : Val :=
  if m.groups.length > 1 then Val.list (m.groups.map optStrToVal)
  else if m.groups.length > 0 then optStrToVal (m.groups.headD Option.none)
  else Val.str m.whole

/-- `Regex` parser.  The `re` engine itself is out of scope and is passed
in as the oracle `rxMatch`, applied to `remaining()` exactly as the source
applies `re.match`; the surrounding code (result rule, `st.reset(start +
end)`) is the translated source. -/
def RegexP (rxMatch : String → Option RxMatch) : ParseFn := fun st =>
  match rxMatch st.remainingStr with
  | Option.none => (POut.res Val.none, st)
  | some m => (POut.res (regexResult m), st.reset (st.index + m.whole.length))

/- Combinators -/

/-- Exception text produced by `_Transform.parse`'s handler:
`'{} (at {} (col {}))'.format(e, st, st.index())` after the reset. -/
def annotateErr (e : String) (st : ParseState) : String :=
  e ++ " (at " ++ reprState st ++ " (col " ++ Nat.repr st.index ++ "))"

/-- `_Transform.parse`: run the inner parser; on failure reset and fail;
on success apply the transform function.  The transform may return a value
(possibly `None`: it is returned as is, without any reset — Python's
`return self._transform(r), st2`), or raise (`POut.err`), in which case
the state is reset to the entry index and the exception is re-raised with
the state and column appended. -/
def TransformP (inner : ParseFn) (tf : Val → POut) : ParseFn := fun st =>
  let initial := st.index
  match inner st with
  | (POut.err e, st2) => (POut.err e, st2)
  | (POut.res r, st2) =>
    if r.isNone then (POut.res Val.none, st2.reset initial)
    else
      match tf r with
      | POut.res v => (POut.res v, st2)
      | POut.err e =>
        let st3 := st2.reset initial
        (POut.err (annotateErr e st3), st3)

/-- Loop body of `_Sequence.parse`: run the remaining sub-parsers in
order, accumulating extended results.  On a failing sub-parser: atomic
sequences reset to `initial` and fail; best-effort sequences reset to the
index recorded just before that sub-parser and succeed with what was
accumulated. -/
def seqLoop (atomic : Bool) (initial : Nat) :
    List ParseFn → List Val → ParseState → POut × ParseState
  | [], acc, st => (POut.res (Val.list acc), st)
  | p :: rest, acc, st =>
    let before := st.index
    match p st with
    | (POut.err e, st2) => (POut.err e, st2)
    | (POut.res r, st2) =>
      if r.isNone then
        if atomic then (POut.res Val.none, st2.reset initial)
        else (POut.res (Val.list acc), st2.reset before)
      else seqLoop atomic initial rest (extendResults acc r) st2

/-- `_Sequence.parse`.  With zero sub-parsers the Python `return results,
st2` raises `UnboundLocalError` (`st2` is assigned only inside the loop);
this propagating exception is the `POut.err` outcome here, with the state
untouched. -/
def SequenceP (atomic : Bool) (parsers : List ParseFn) : ParseFn := fun st =>
  match parsers with
  | [] => (POut.err "UnboundLocalError: st2", st)
  | p :: rest => seqLoop atomic st.index (p :: rest) [] st

/-- `AtomicSequence`: all sub-parsers must succeed, otherwise full rollback. -/
def AtomicSequenceP (parsers : List ParseFn) : ParseFn := SequenceP true parsers

/-- `OptimisticSequence`: run as far as possible. -/
def OptimisticSequenceP (parsers : List ParseFn) : ParseFn := SequenceP false parsers

/-- Loop body of `_Repeat.parse`, with the number of remaining permitted
iterations made explicit.  For a non-negative bound the fuel is exactly
the bound and running out of it is the normal `while` exit (results are
returned).  For a negative bound (`unbounded = true`) the Python loop has
no bound at all; the caller supplies fuel that cannot be exhausted as long
as every success consumes at least one character, and exhausting it —
where Python would loop forever — is reported as an error outcome. -/
def repLoop (p : ParseFn) (strict unbounded : Bool) (initial : Nat) :
    Nat → List Val → ParseState → POut × ParseState
  | 0, acc, st =>
    if unbounded then (POut.err "nonterminating repeat", st)
    else (POut.res (Val.list acc), st)
  | fuel + 1, acc, st =>
    match p st with
    | (POut.err e, st2) => (POut.err e, st2)
    | (POut.res r, st2) =>
      if r.isNone then
        if strict then (POut.res Val.none, st2.reset initial)
        else (POut.res (Val.list acc), st2)
      else repLoop p strict unbounded initial fuel (extendResults acc r) st2

/-- `_Repeat.parse`: `while i < times or times < 0`. -/
def RepeatBaseP (strict : Bool) (p : ParseFn) (times : Int) : ParseFn := fun st =>
  if times < 0 then
    repLoop p strict true st.index (st.input.length - st.index + 1) [] st
  else
    repLoop p strict false st.index times.toNat [] st

/-- `StrictRepeat`: exactly `times` matches. -/
def StrictRepeatP (p : ParseFn) (times : Int) : ParseFn := RepeatBaseP true p times

/-- `Repeat`: up to `times` matches, `-1` for unboundedly many. -/
def RepeatP (p : ParseFn) (times : Int) : ParseFn := RepeatBaseP false p times

/-- `Maybe(p) = Repeat(p, 1)`. -/
def MaybeP (p : ParseFn) : ParseFn := RepeatP p 1

/-- Loop of `FirstAlternative.parse`: try in order, return the first
success immediately, resetting to `initial` after each failure; fail with
the (reset) state when all fail. -/
def firstLoop (initial : Nat) : List ParseFn → ParseState → POut × ParseState
  | [], st => (POut.res Val.none, st)
  | p :: rest, st =>
    match p st with
    | (POut.err e, st2) => (POut.err e, st2)
    | (POut.res r, st2) =>
      if r.isNone then firstLoop initial rest (st2.reset initial)
      else (POut.res r, st2)

/-- `FirstAlternative`. -/
def FirstAlternativeP (parsers : List ParseFn) : ParseFn := fun st =>
  firstLoop st.index parsers st

/-- Key order used by `matches.sort(key=lambda t: t[0])`. -/
def keyLe (a b : Int × Val) : Prop := a.1 ≤ b.1

instance : DecidableRel keyLe := fun a b => inferInstanceAs (Decidable (a.1 ≤ b.1))

instance : IsTotal (Int × Val) keyLe := ⟨fun a b => Int.le_total a.1 b.1⟩

instance : IsTrans (Int × Val) keyLe := ⟨fun _ _ _ h h' => le_trans h h'⟩

/-- The `best` scan of `LongestAlternative.parse`: walk the reversed
sorted matches, stopping at the first strictly smaller length (`break`),
replacing `best` otherwise. -/
def bestLoop (best : Int × Val) : List (Int × Val) → Int × Val
  | [] => best
  | r :: rest => if r.1 < best.1 then best else bestLoop r rest

/-- Selection step of `LongestAlternative.parse`: stable ascending sort by
consumed length (Python's `list.sort` modelled by the stable
`insertionSort`), reverse, then the `best` scan from the head.  The empty
case is unreachable (the caller checks `len(matches) == 0` first). -/
def selectBest (ms : List (Int × Val)) : Int × Val :=
  match (List.insertionSort keyLe ms).reverse with
  | [] => (0, Val.none)
  | b :: w => bestLoop b w

/-- Loop of `LongestAlternative.parse`: run every sub-parser from the
initial index (resetting between attempts), record `(st2.index() -
initial, r)` for each success; afterwards fail if nothing matched, else
reset to `initial + best[0]` and return the best result. -/
def longLoop (initial : Nat) :
    List ParseFn → List (Int × Val) → ParseState → POut × ParseState
  | [], ms, st =>
    match ms with
    | [] => (POut.res Val.none, st.reset initial)
    | c :: cs =>
      let best := selectBest (c :: cs)
      (POut.res best.2, st.reset ((initial : Int) + best.1).toNat)
  | p :: rest, ms, st =>
    match p st with
    | (POut.err e, st2) => (POut.err e, st2)
    | (POut.res r, st2) =>
      if r.isNone then longLoop initial rest ms (st2.reset initial)
      else
        longLoop initial rest
          (ms ++ [((st2.index : Int) - (initial : Int), r)]) (st2.reset initial)

/-- `LongestAlternative`. -/
def LongestAlternativeP (parsers : List ParseFn) : ParseFn := fun st =>
  longLoop st.index parsers [] st

/- Directly implemented combinators -/

/-- The lambda of `Last`: last element of a list result, scalars unchanged.
`l[-1]` on an empty Python list raises `IndexError`. -/
def lastTf : Val → POut
  | Val.list [] => POut.err "IndexError"
  | Val.list (x :: xs) => POut.res ((x :: xs).getLast (by simp))
  | v => POut.res v

/-- `Last(p)`. -/
def LastP (p : ParseFn) : ParseFn := TransformP p lastTf

/-- The lambda of `Skip`: replace any result by `[]`. -/
def skipTf : Val → POut := fun _ => POut.res (Val.list [])

/-- `Skip(p)`. -/
def SkipP (p : ParseFn) : ParseFn := TransformP p skipTf

/-- Python `''.join(l)` over a list of values: joins when all elements are
strings, `none` (a `TypeError`) otherwise.  Works on characters so string
append reasoning stays in `List`. -/
def pyJoin : List Val → Option (List Char)
  | [] => some []
  | Val.str s :: rest => (pyJoin rest).map (fun cs => s.data ++ cs)
  | _ => Option.none

/-- The lambda of `ConcatenateResults`:
`''.join(l) if l and len(l) > 0 else None`.  An empty or falsy `l` gives
`None`; `''.join` of a non-string element raises `TypeError`; `len` of a
number raises `TypeError`. -/
def joinTf : Val → POut
  | Val.none => POut.res Val.none
  | Val.list [] => POut.res Val.none
  | Val.list xs =>
    match pyJoin xs with
    | some cs => POut.res (Val.str (String.mk cs))
    | Option.none => POut.err "TypeError"
  | Val.str "" => POut.res Val.none
  | Val.str s => POut.res (Val.str s)
  | Val.num q => if q = 0 then POut.res Val.none else POut.err "TypeError"

/-- `ConcatenateResults(p)`. -/
def ConcatenateResultsP (p : ParseFn) : ParseFn := TransformP p joinTf

/- Small specific parsers -/

/-- `Nothing()`: the empty string, always succeeds. -/
def NothingP : ParseFn := StringP ""

/-- `CharSet(s)`: arbitrarily many characters from the set, concatenated. -/
def CharSetP (s : List Char) : ParseFn := ConcatenateResultsP (RepeatP (OneOfP s) (-1))

/-- `Whitespace()`: `CharSet(' \n\r\t') | Nothing()`. -/
def WhitespaceP : ParseFn := FirstAlternativeP [CharSetP " \n\r\t".data, NothingP]

/-- The digit-set parser shared by the numeric parsers. -/
def digitChars : List Char := "0123456789".data

/-- The conversion `c` inside `CanonicalFloat`: join the parts and convert
to float when non-empty, `None` otherwise (same falsy handling as
`ConcatenateResults`'s lambda, with `float()` on top). -/
def cFn : Val → POut
  | Val.none => POut.res Val.none
  | Val.list [] => POut.res Val.none
  | Val.list xs =>
    match pyJoin xs with
    | some cs => POut.res (Val.num (decimalToRat (String.mk cs)))
    | Option.none => POut.err "TypeError"
  | Val.str "" => POut.res Val.none
  | Val.str s => POut.res (Val.num (decimalToRat s))
  | Val.num q => if q = 0 then POut.res Val.none else POut.err "TypeError"

/-- The `number` sub-parser of `CanonicalFloat`:
`OptimisticSequence(Repeat(OneOf('-'), 1) + CharSet(digits),
Repeat(OneOf('.'), 1) + CharSet(digits))`. -/
def canonicalNumberP : ParseFn :=
  OptimisticSequenceP
    [AtomicSequenceP [RepeatP (OneOfP "-".data) 1, CharSetP digitChars],
     AtomicSequenceP [RepeatP (OneOfP ".".data) 1, CharSetP digitChars]]

/-- `CanonicalFloat()`: `(Skip(Whitespace()) + number) >> c`. -/
def CanonicalFloatP : ParseFn :=
  TransformP (AtomicSequenceP [SkipP WhitespaceP, canonicalNumberP]) cFn

/-- The optimized `Float` parser (`Float.parse`), translated statement by
statement; `self._digits` is `CharSet('0123456789')`. -/
def FloatP : ParseFn := fun st =>
  let initial := st.index
  match StringP "-" st with
  | (POut.err e, st') => (POut.err e, st')
  | (POut.res minus, st1) =>
    let multiplier : ℚ := if minus.isNone then 1 else -1
    match CharSetP digitChars st1 with
    | (POut.err e, st') => (POut.err e, st')
    | (POut.res big, st2) =>
      match big with
      | Val.none => (POut.res Val.none, st2.reset initial)
      | Val.str bigS =>
        match StringP "." st2 with
        | (POut.err e, st') => (POut.err e, st')
        | (POut.res dot, st3) =>
          if dot.isNone then
            (POut.res (Val.num (decimalToRat bigS * multiplier)), st3)
          else
            match CharSetP digitChars st3 with
            | (POut.err e, st') => (POut.err e, st')
            | (POut.res small, st4) =>
              match small with
              | Val.none => (POut.res (Val.num (decimalToRat bigS * multiplier)), st4)
              | Val.str smallS =>
                (POut.res (Val.num (decimalToRat (bigS ++ "." ++ smallS) * multiplier)), st4)
              | _ => (POut.err "TypeError", st4)
      | _ => (POut.err "TypeError", st2)

/- Deep embedding of the combinator algebra, for claims quantifying over
"every parser built from the core combinators". -/

mutual

/-- Syntax of parsers built from the core combinators over the leaf
parsers: literal strings, character sets, regex patterns (with their
oracle), transformation, sequencing (atomic flag), repetition (strict
flag and bound), and the two alternations. -/
inductive PExp : Type where
  | pstring : String → PExp
  | poneOf : List Char → PExp
  | pregex : (String → Option RxMatch) → PExp
  | ptransform : PExp → (Val → POut) → PExp
  | pseq : Bool → PList → PExp
  | prep : Bool → PExp → Int → PExp
  | pfirst : PList → PExp
  | plongest : PList → PExp

/-- Lists of sub-parsers of a combinator. -/
inductive PList : Type where
  | pnil : PList
  | pcons : PExp → PList → PList

end

mutual

/-- The parser a combinator expression denotes. -/
def denote : PExp → ParseFn
  | PExp.pstring s => StringP s
  | PExp.poneOf cs => OneOfP cs
  | PExp.pregex f => RegexP f
  | PExp.ptransform p tf => TransformP (denote p) tf
  | PExp.pseq b l => SequenceP b (denoteList l)
  | PExp.prep b p n => RepeatBaseP b (denote p) n
  | PExp.pfirst l => FirstAlternativeP (denoteList l)
  | PExp.plongest l => LongestAlternativeP (denoteList l)

/-- Denotations of a sub-parser list. -/
def denoteList : PList → List ParseFn
  | PList.pnil => []
  | PList.pcons p l => denote p :: denoteList l

end

mutual

/-- All transform functions in the expression return a value distinct from
the failure marker, and no regex pattern can produce the failure marker as
its result (a single capture group whose value is absent). -/
def TotalTf : PExp → Prop
  | PExp.pstring _ => True
  | PExp.poneOf _ => True
  | PExp.pregex f => ∀ s m, f s = some m → regexResult m ≠ Val.none
  | PExp.ptransform p tf => (∀ v, tf v ≠ POut.res Val.none) ∧ TotalTf p
  | PExp.pseq _ l => TotalTfs l
  | PExp.prep _ p _ => TotalTf p
  | PExp.pfirst l => TotalTfs l
  | PExp.plongest l => TotalTfs l

/-- `TotalTf` for every member of a sub-parser list. -/
def TotalTfs : PList → Prop
  | PList.pnil => True
  | PList.pcons p l => TotalTf p ∧ TotalTfs l

end

/- Specification-side definitions (formalising the spec's words, to be
compared against the implementation). -/

/-- Selection the spec asks of a longest-match alternation: walk the
successful candidates in declaration order keeping the current best,
replacing it only on a strictly greater consumed length — i.e. the
earliest candidate of maximal length wins. -/
def pickBest (best : Int × Val) : List (Int × Val) → Int × Val
  | [] => best
  | y :: ys => if y.1 > best.1 then pickBest y ys else pickBest best ys

/-- The successful candidates of an alternation's sub-parsers, each with
its consumed length, all run from the same starting state. -/
def candidates (st : ParseState) (parsers : List ParseFn) : List (Int × Val) :=
  parsers.filterMap (fun p =>
    match p st with
    | (POut.res r, st2) =>
      if r.isNone then Option.none
      else some ((st2.index : Int) - (st.index : Int), r)
    | (POut.err _, _) => Option.none)

/-- Result rule of the `Pattern` parser as the spec words it: two or more
capture groups give the ordered list of group values, exactly one gives
that group's value, otherwise the whole match. -/
def regexResultSpec (m : RxMatch) : Val :=
  if 2 ≤ m.groups.length then Val.list (m.groups.map optStrToVal)
  else if m.groups.length = 1 then optStrToVal (m.groups.headD Option.none)
  else Val.str m.whole

/-- `SuccRun p k st st'`: from `st`, `k` consecutive successful matches of
`p` end in state `st'`. -/
def SuccRun (p : ParseFn) : Nat → ParseState → ParseState → Prop
  | 0, st, st' => st' = st
  | k + 1, st, st' =>
    ∃ r stm, p st = (POut.res r, stm) ∧ r ≠ Val.none ∧ SuccRun p k stm st'

/-- Number of times the greedy bounded repetition invokes its sub-parser:
one invocation per loop iteration, stopping after a failure or error, or
when the bound is exhausted. -/
def repInvocations (p : ParseFn) : Nat → ParseState → Nat
  | 0, _ => 0
  | n + 1, st =>
    match p st with
    | (POut.res r, st2) => if r.isNone then 1 else 1 + repInvocations p n st2
    | (POut.err _, _) => 1

/- No-consumption-on-failure lemmas for each leaf parser and combinator. -/

theorem ParseState.reset_index (st : ParseState) (ix : Nat) : (st.reset ix).index = ix := rfl

theorem ParseState.reset_input (st : ParseState) (ix : Nat) : (st.reset ix).input = st.input := rfl

theorem stringP_none_index (s : String) (st : ParseState)
    (h : (StringP s st).1 = POut.res Val.none) :
    ((StringP s st).2).index = st.index := by
  rcases hsl : stringLoop s.data st with ⟨b, st'⟩
  cases b
  · simp [StringP, hsl, ParseState.reset_index]
  · simp [StringP, hsl] at h

theorem oneOfP_none_index (s : List Char) (st : ParseState)
    (h : (OneOfP s st).1 = POut.res Val.none) :
    ((OneOfP s st).2).index = st.index := by
  cases hp : st.peek? with
  | none => simp [OneOfP, hp]
  | some c =>
    by_cases hc : c ∈ s
    · simp [OneOfP, hp, hc] at h
    · simp [OneOfP, hp, hc]

theorem regexP_none_index (f : String → Option RxMatch) (st : ParseState)
    (hf : ∀ s m, f s = some m → regexResult m ≠ Val.none)
    (h : (RegexP f st).1 = POut.res Val.none) :
    ((RegexP f st).2).index = st.index := by
  cases hm : f st.remainingStr with
  | none => simp [RegexP, hm]
  | some m =>
    simp only [RegexP, hm, POut.res.injEq] at h
    exact absurd h (hf _ m hm)

theorem transformP_none_index (inner : ParseFn) (tf : Val → POut) (st : ParseState)
    (htf : ∀ v, tf v ≠ POut.res Val.none)
    (h : (TransformP inner tf st).1 = POut.res Val.none) :
    ((TransformP inner tf st).2).index = st.index := by
  rcases hin : inner st with ⟨o, st2⟩
  cases o with
  | err e => simp [TransformP, hin] at h
  | res r =>
    by_cases hr : r.isNone
    · simp [TransformP, hin, hr, ParseState.reset_index]
    · rw [Bool.not_eq_true] at hr
      cases htr : tf r with
      | res v =>
        simp only [TransformP, hin, hr, Bool.false_eq_true, if_false, htr,
          POut.res.injEq] at h
        exact absurd (h ▸ htr) (htf r)
      | err e =>
        simp [TransformP, hin, hr, htr] at h

theorem seqLoop_none_index (atomic : Bool) :
    ∀ (parsers : List ParseFn) (initial : Nat) (acc : List Val) (st : ParseState),
      (seqLoop atomic initial parsers acc st).1 = POut.res Val.none →
      ((seqLoop atomic initial parsers acc st).2).index = initial := by
  intro parsers
  induction parsers with
  | nil => intro initial acc st h; simp [seqLoop] at h
  | cons p rest ih =>
    intro initial acc st h
    rcases hp : p st with ⟨o, st2⟩
    cases o with
    | err e => simp [seqLoop, hp] at h
    | res r =>
      by_cases hr : r.isNone
      · cases atomic with
        | true => simp [seqLoop, hp, hr, ParseState.reset_index]
        | false => simp [seqLoop, hp, hr] at h
      · rw [Bool.not_eq_true] at hr
        simp only [seqLoop, hp, hr, Bool.false_eq_true, if_false] at h ⊢
        exact ih initial (extendResults acc r) st2 h

theorem sequenceP_none_index (atomic : Bool) (parsers : List ParseFn) (st : ParseState)
    (h : (SequenceP atomic parsers st).1 = POut.res Val.none) :
    ((SequenceP atomic parsers st).2).index = st.index := by
  cases parsers with
  | nil => simp [SequenceP] at h
  | cons p rest =>
    simp only [SequenceP] at h ⊢
    exact seqLoop_none_index atomic (p :: rest) st.index [] st h

theorem repLoop_none_index (p : ParseFn) (strict unbounded : Bool) (initial : Nat) :
    ∀ (fuel : Nat) (acc : List Val) (st : ParseState),
      (repLoop p strict unbounded initial fuel acc st).1 = POut.res Val.none →
      ((repLoop p strict unbounded initial fuel acc st).2).index = initial := by
  intro fuel
  induction fuel with
  | zero =>
    intro acc st h
    cases unbounded <;> simp [repLoop] at h
  | succ n ih =>
    intro acc st h
    rcases hp : p st with ⟨o, st2⟩
    cases o with
    | err e => simp [repLoop, hp] at h
    | res r =>
      by_cases hr : r.isNone
      · cases strict with
        | true => simp [repLoop, hp, hr, ParseState.reset_index]
        | false => simp [repLoop, hp, hr] at h
      · rw [Bool.not_eq_true] at hr
        simp only [repLoop, hp, hr, Bool.false_eq_true, if_false] at h ⊢
        exact ih (extendResults acc r) st2 h

theorem repeatBaseP_none_index (strict : Bool) (p : ParseFn) (times : Int) (st : ParseState)
    (h : (RepeatBaseP strict p times st).1 = POut.res Val.none) :
    ((RepeatBaseP strict p times st).2).index = st.index := by
  by_cases ht : times < 0
  · simp only [RepeatBaseP, ht, if_true] at h ⊢
    exact repLoop_none_index p strict true st.index _ [] st h
  · simp only [RepeatBaseP, ht, if_false] at h ⊢
    exact repLoop_none_index p strict false st.index _ [] st h

theorem firstLoop_none_index (initial : Nat) :
    ∀ (parsers : List ParseFn) (st : ParseState), st.index = initial →
      (firstLoop initial parsers st).1 = POut.res Val.none →
      ((firstLoop initial parsers st).2).index = initial := by
  intro parsers
  induction parsers with
  | nil => intro st hst _; exact hst
  | cons p rest ih =>
    intro st hst h
    rcases hp : p st with ⟨o, st2⟩
    cases o with
    | err e => simp [firstLoop, hp] at h
    | res r =>
      by_cases hr : r.isNone
      · simp only [firstLoop, hp, hr, if_true] at h ⊢
        exact ih (st2.reset initial) rfl h
      · rw [Bool.not_eq_true] at hr
        simp only [firstLoop, hp, hr, Bool.false_eq_true, if_false, POut.res.injEq] at h
        exact absurd h ((Val.isNone_eq_false_iff r).1 hr)

theorem bestLoop_mem : ∀ (w : List (Int × Val)) (b : Int × Val), bestLoop b w ∈ b :: w := by
  intro w
  induction w with
  | nil => intro b; simp [bestLoop]
  | cons y ys ih =>
    intro b
    unfold bestLoop
    by_cases hy : y.1 < b.1
    · simp [hy]
    · simp only [hy, if_false]
      have := ih y
      simp only [List.mem_cons] at this ⊢
      tauto

theorem selectBest_mem (ms : List (Int × Val)) (hms : ms ≠ []) : selectBest ms ∈ ms := by
  unfold selectBest
  cases hrev : (List.insertionSort keyLe ms).reverse with
  | nil =>
    exfalso
    rw [List.reverse_eq_nil_iff] at hrev
    have := (List.perm_insertionSort keyLe ms).length_eq
    rw [hrev] at this
    exact hms (List.eq_nil_of_length_eq_zero this.symm)
  | cons b w =>
    have h1 : bestLoop b w ∈ b :: w := bestLoop_mem w b
    rw [← hrev, List.mem_reverse, List.mem_insertionSort] at h1
    exact h1

theorem longLoop_none_index (initial : Nat) :
    ∀ (parsers : List ParseFn) (ms : List (Int × Val)) (st : ParseState),
      (∀ x ∈ ms, x.2 ≠ Val.none) →
      (longLoop initial parsers ms st).1 = POut.res Val.none →
      ((longLoop initial parsers ms st).2).index = initial := by
  intro parsers
  induction parsers with
  | nil =>
    intro ms st hms h
    cases ms with
    | nil => simp [longLoop, ParseState.reset_index]
    | cons c cs =>
      exfalso
      simp only [longLoop, POut.res.injEq] at h
      exact hms _ (selectBest_mem (c :: cs) (by simp)) h
  | cons p rest ih =>
    intro ms st hms h
    rcases hp : p st with ⟨o, st2⟩
    cases o with
    | err e => simp [longLoop, hp] at h
    | res r =>
      by_cases hr : r.isNone
      · simp only [longLoop, hp, hr, if_true] at h ⊢
        exact ih ms (st2.reset initial) hms h
      · rw [Bool.not_eq_true] at hr
        simp only [longLoop, hp, hr, Bool.false_eq_true, if_false] at h ⊢
        refine ih _ (st2.reset initial) ?_ h
        intro x hx
        rcases List.mem_append.1 hx with hx | hx
        · exact hms x hx
        · rw [List.mem_singleton] at hx
          subst hx
          exact (Val.isNone_eq_false_iff r).1 hr

theorem longestP_none_index (parsers : List ParseFn) (st : ParseState)
    (h : (LongestAlternativeP parsers st).1 = POut.res Val.none) :
    ((LongestAlternativeP parsers st).2).index = st.index :=
  longLoop_none_index st.index parsers [] st (by simp) h

/- Claim theorems. -/

/-- C9: attempting an atomic or best-effort sequence built from zero
sub-parsers raises an unhandled error (the success return references the
loop-local `st2`, never assigned), instead of succeeding with `[]`. -/
theorem empty_sequence_raises (atomic : Bool) (st : ParseState) :
    SequenceP atomic [] st = (POut.err "UnboundLocalError: st2", st)
    ∧ ∀ v, (SequenceP atomic [] st).1 ≠ POut.res v := by
  refine ⟨rfl, ?_⟩
  intro v h
  simp [SequenceP] at h

/-- C10: when a Map combinator's function returns the failure marker
`None` without raising, the combinator returns the failure outcome paired
with the state exactly where the inner parser left it — the pre-attempt
position is not restored. -/
theorem transform_none_keeps_consumed (inner : ParseFn) (tf : Val → POut)
    (st : ParseState) (r : Val) (st2 : ParseState)
    (hin : inner st = (POut.res r, st2)) (hr : r ≠ Val.none)
    (htf : tf r = POut.res Val.none) :
    TransformP inner tf st = (POut.res Val.none, st2) := by
  unfold TransformP
  rw [hin]
  have hrn : r.isNone = false := (Val.isNone_eq_false_iff r).2 hr
  simp only [hrn, Bool.false_eq_true, if_false, htf]

/-- Witness for C10, realising the claim's `Concatenate` scenario:
`ConcatenateResults(Repeat(Skip(String('a')), -1))` on input `"a"`
consumes the `'a'`, ends with an empty result list, and the joining
function turns that into a failure at index 1 — a failing parse that
consumed input. -/
theorem transform_none_keeps_consumed_witness :
    RepeatP (SkipP (StringP "a")) (-1) (ps "a") = (POut.res (Val.list []), ⟨"a".data, 1⟩)
    ∧ ConcatenateResultsP (RepeatP (SkipP (StringP "a")) (-1)) (ps "a")
        = (POut.res Val.none, ⟨"a".data, 1⟩)
    ∧ (ps "a").index = 0 := by
  refine ⟨rfl, ?_, rfl⟩
  exact transform_none_keeps_consumed _ joinTf (ps "a") (Val.list []) ⟨"a".data, 1⟩ rfl
    (by simp) rfl

/-- C8: when the inner parser of a Map succeeds and the caller-supplied
function raises, the cursor is rolled back to the pre-attempt position and
an error annotated with the cursor state and offset propagates; it is
never converted into the "no match" result. -/
theorem transform_error_rollback (inner : ParseFn) (tf : Val → POut)
    (st : ParseState) (r : Val) (st2 : ParseState) (e : String)
    (hin : inner st = (POut.res r, st2)) (hr : r ≠ Val.none)
    (htf : tf r = POut.err e) :
    TransformP inner tf st
      = (POut.err (annotateErr e (st2.reset st.index)), st2.reset st.index)
    ∧ ((TransformP inner tf st).2).index = st.index
    ∧ ∀ v, (TransformP inner tf st).1 ≠ POut.res v := by
  have hrn : r.isNone = false := (Val.isNone_eq_false_iff r).2 hr
  have h1 : TransformP inner tf st
      = (POut.err (annotateErr e (st2.reset st.index)), st2.reset st.index) := by
    unfold TransformP
    rw [hin]
    simp only [hrn, Bool.false_eq_true, if_false, htf]
  refine ⟨h1, by rw [h1]; rfl, ?_⟩
  intro v h
  rw [h1] at h
  simp at h

/-- Witness for C8: a transform that raises `boom` over a successful
two-character match; the propagated error carries the rolled-back state's
repr and column 0, and the returned state is back at index 0. -/
theorem transform_error_rollback_witness :
    StringP "ab" (ps "abc") = (POut.res (Val.str "ab"), ⟨"abc".data, 2⟩)
    ∧ TransformP (StringP "ab") (fun _ => POut.err "boom") (ps "abc")
        = (POut.err "boom (at ParseState(< a >bc) (col 0))", ⟨"abc".data, 0⟩) := by
  refine ⟨rfl, ?_⟩
  exact ((transform_error_rollback (StringP "ab") (fun _ => POut.err "boom") (ps "abc")
    (Val.str "ab") ⟨"abc".data, 2⟩ "boom" rfl (by simp) rfl).1).trans (by rfl)

/-- C5: an atomic sequence that fails rolls the cursor back to the
position recorded before its first sub-parser ran; and whenever any
sub-parser fails mid-run — however much the earlier ones had consumed —
the whole sequence fails with that full rollback. -/
theorem atomic_sequence_full_rollback (parsers : List ParseFn) (st : ParseState) :
    ((AtomicSequenceP parsers st).1 = POut.res Val.none →
      ((AtomicSequenceP parsers st).2).index = st.index)
    ∧ (∀ (acc : List Val) (stCur : ParseState) (p : ParseFn) (rest : List ParseFn),
        (p stCur).1 = POut.res Val.none →
        seqLoop true st.index (p :: rest) acc stCur
          = (POut.res Val.none, ((p stCur).2).reset st.index)) := by
  constructor
  · intro h
    exact sequenceP_none_index true parsers st h
  · intro acc stCur p rest hp
    rcases hps : p stCur with ⟨o, st2⟩
    rw [hps] at hp
    simp only at hp
    subst hp
    simp [seqLoop, hps, Val.isNone]

/-- Witness for C5: `AtomicSequence(String('a'), String('b'))` on `"ax"`
fails (the second literal mismatches after the first consumed one
character) and the cursor is back at 0; the loop-level fact is exercised
at the failing step with the accumulated result of the first literal. -/
theorem atomic_sequence_full_rollback_witness :
    ((AtomicSequenceP [StringP "a", StringP "b"] (ps "ax")).1 = POut.res Val.none
      ∧ ((AtomicSequenceP [StringP "a", StringP "b"] (ps "ax")).2).index = (ps "ax").index)
    ∧ ((StringP "b" (⟨"ax".data, 1⟩ : ParseState)).1 = POut.res Val.none
      ∧ seqLoop true (ps "ax").index [StringP "b"] [Val.str "a"] ⟨"ax".data, 1⟩
          = (POut.res Val.none, ((StringP "b" (⟨"ax".data, 1⟩ : ParseState)).2).reset (ps "ax").index)) := by
  refine ⟨⟨rfl, ?_⟩, rfl, ?_⟩
  · exact (atomic_sequence_full_rollback [StringP "a", StringP "b"] (ps "ax")).1 rfl
  · exact (atomic_sequence_full_rollback [StringP "a", StringP "b"] (ps "ax")).2
      [Val.str "a"] ⟨"ax".data, 1⟩ (StringP "b") [] rfl

/-- The parser refuting C1 as literally stated:
`ConcatenateResults(Repeat(Skip(String('a')), -1))`, built from the core
combinators. -/
def cexExp : PExp :=
  PExp.ptransform (PExp.prep false (PExp.ptransform (PExp.pstring "a") skipTf) (-1)) joinTf

/-- Counterexample to C1 as stated: a parser built from the core
combinators (`ConcatenateResults` over a repetition of `Skip(String('a'))`)
fails on input `"a"` with the returned cursor at index 1, not at the entry
index 0 — a failing parser that left the cursor advanced. -/
theorem combinator_fail_restores_counterexample :
    (denote cexExp (ps "a")).1 = POut.res Val.none
    ∧ ((denote cexExp (ps "a")).2).index ≠ (ps "a").index := by
  exact ⟨rfl, by decide⟩

/-- C1 (amended): for every parser built from the core combinators in
which every transform function returns a value other than the failure
marker and no regex pattern can yield the failure marker as its result, a
failing attempt returns the cursor at the entry position. -/
theorem combinator_fail_restores_index (e : PExp) (st : ParseState)
    (ht : TotalTf e) (h : (denote e st).1 = POut.res Val.none) :
    ((denote e st).2).index = st.index := by
  cases e with
  | pstring s => exact stringP_none_index s st h
  | poneOf cs => exact oneOfP_none_index cs st h
  | pregex f =>
    simp only [TotalTf] at ht
    exact regexP_none_index f st ht h
  | ptransform p tf =>
    simp only [TotalTf] at ht
    simp only [denote] at h ⊢
    exact transformP_none_index (denote p) tf st ht.1 h
  | pseq b l =>
    simp only [denote] at h ⊢
    exact sequenceP_none_index b (denoteList l) st h
  | prep b p n =>
    simp only [denote] at h ⊢
    exact repeatBaseP_none_index b (denote p) n st h
  | pfirst l =>
    simp only [denote, FirstAlternativeP] at h ⊢
    exact firstLoop_none_index st.index (denoteList l) st rfl h
  | plongest l =>
    simp only [denote] at h ⊢
    exact longestP_none_index (denoteList l) st h

/-- Witness for the amended C1: the literal parser `String("ab")` (all of
whose — zero — transforms are total) failing on `"xy"` keeps the cursor at
index 0. -/
theorem combinator_fail_restores_index_witness :
    TotalTf (PExp.pstring "ab")
    ∧ (denote (PExp.pstring "ab") (ps "xy")).1 = POut.res Val.none
    ∧ ((denote (PExp.pstring "ab") (ps "xy")).2).index = (ps "xy").index := by
  have h1 : TotalTf (PExp.pstring "ab") := by simp [TotalTf]
  have h2 : (denote (PExp.pstring "ab") (ps "xy")).1 = POut.res Val.none := rfl
  exact ⟨h1, h2, combinator_fail_restores_index (PExp.pstring "ab") (ps "xy") h1 h2⟩

/-- C7: a regex-based Pattern parser whose compiled pattern matches at the
current position produces the spec's result (two or more capture groups:
the ordered list of group values; exactly one: that group's value;
otherwise the whole matched text) and advances the cursor past the matched
prefix. -/
theorem regex_result_rule (f : String → Option RxMatch) (st : ParseState) (m : RxMatch)
    (hm : f st.remainingStr = some m) :
    RegexP f st = (POut.res (regexResultSpec m), st.reset (st.index + m.whole.length)) := by
  have heq : regexResult m = regexResultSpec m := by
    unfold regexResult regexResultSpec
    by_cases h2 : m.groups.length > 1
    · rw [if_pos h2, if_pos (by omega)]
    · rw [if_neg h2]
      by_cases h1 : m.groups.length > 0
      · rw [if_pos h1, if_neg (by omega), if_pos (by omega)]
      · rw [if_neg h1, if_neg (by omega), if_neg (by omega)]
  simp only [RegexP, hm]
  rw [heq]

/-- Oracle for the C7 witness: on `"abc"` the pattern matches the prefix
`"ab"` with two capture groups, the second unmatched. -/
def rxOracle : String → Option RxMatch := fun s =>
  if s = "abc" then some ⟨"ab", [some "a", Option.none]⟩ else Option.none

/-- Witness for C7: with two capture groups the result is the ordered list
of the group values (an unmatched group contributing `None`) and the
cursor advances by the length of the matched prefix. -/
theorem regex_result_rule_witness :
    rxOracle (ps "abc").remainingStr = some ⟨"ab", [some "a", Option.none]⟩
    ∧ RegexP rxOracle (ps "abc")
        = (POut.res (Val.list [Val.str "a", Val.none]), ⟨"abc".data, 2⟩) := by
  refine ⟨rfl, ?_⟩
  exact (regex_result_rule rxOracle (ps "abc") ⟨"ab", [some "a", Option.none]⟩ rfl).trans rfl

/-- The `OneOf` parser never raises. -/
theorem oneOfP_no_err (s : List Char) (st : ParseState) (e : String) :
    (OneOfP s st).1 ≠ POut.err e := by
  cases hp : st.peek? with
  | none => simp [OneOfP, hp]
  | some c =>
    by_cases hc : c ∈ s
    · simp [OneOfP, hp, hc]
    · simp [OneOfP, hp, hc]

theorem repInvocations_le (p : ParseFn) :
    ∀ (n : Nat) (st : ParseState), repInvocations p n st ≤ n := by
  intro n
  induction n with
  | zero => intro st; simp [repInvocations]
  | succ k ih =>
    intro st
    rcases hp : p st with ⟨o, st2⟩
    cases o with
    | err e => simp [repInvocations, hp]
    | res r =>
      by_cases hr : r.isNone
      · simp [repInvocations, hp, hr]
      · rw [Bool.not_eq_true] at hr
        simp only [repInvocations, hp, hr, Bool.false_eq_true, if_false]
        have := ih st2
        omega

theorem repLoop_run (p : ParseFn) (initial : Nat)
    (hne : ∀ s e, (p s).1 ≠ POut.err e)
    (hfr : ∀ s, (p s).1 = POut.res Val.none → ((p s).2).index = s.index) :
    ∀ (n : Nat) (acc : List Val) (st : ParseState),
      (∃ vs, (repLoop p false false initial n acc st).1 = POut.res (Val.list vs))
      ∧ ∃ k st', k ≤ n ∧ SuccRun p k st st'
          ∧ ((repLoop p false false initial n acc st).2).index = st'.index := by
  intro n
  induction n with
  | zero =>
    intro acc st
    exact ⟨⟨acc, rfl⟩, 0, st, le_refl 0, rfl, rfl⟩
  | succ k ih =>
    intro acc st
    rcases hp : p st with ⟨o, st2⟩
    cases o with
    | err e => exact absurd (by rw [hp]) (hne st e)
    | res r =>
      by_cases hr : r.isNone
      · have hrn : r = Val.none := (Val.isNone_iff r).1 hr
        subst hrn
        have hidx : st2.index = st.index := by
          have := hfr st (by rw [hp])
          rwa [hp] at this
        refine ⟨⟨acc, by simp [repLoop, hp, Val.isNone]⟩, 0, st, Nat.zero_le _, rfl, ?_⟩
        simp only [repLoop, hp, Val.isNone, if_true]
        exact hidx
      · rw [Bool.not_eq_true] at hr
        have hrn : r ≠ Val.none := (Val.isNone_eq_false_iff r).1 hr
        rcases ih (extendResults acc r) st2 with ⟨⟨vs, hvs⟩, k', st', hk, hrun, hidx⟩
        refine ⟨⟨vs, ?_⟩, k' + 1, st', by omega, ⟨r, st2, hp, hrn, hrun⟩, ?_⟩
        · simpa only [repLoop, hp, hr, Bool.false_eq_true, if_false] using hvs
        · simpa only [repLoop, hp, hr, Bool.false_eq_true, if_false] using hidx

/-- C4: a greedy repetition with bound `N ≥ 0` over a parser `p` that
neither raises nor consumes on failure always succeeds (with a list
result, never the failure marker), performs between `0` and `N` successful
matches of `p`, leaves the cursor at the position reached after the last
successful match, and invokes `p` at most `N` times. -/
theorem greedy_repeat_bound (p : ParseFn) (N : Nat) (st : ParseState)
    (hne : ∀ s e, (p s).1 ≠ POut.err e)
    (hfr : ∀ s, (p s).1 = POut.res Val.none → ((p s).2).index = s.index) :
    (∃ vs, (RepeatP p (N : Int) st).1 = POut.res (Val.list vs))
    ∧ (∃ k st', k ≤ N ∧ SuccRun p k st st'
        ∧ ((RepeatP p (N : Int) st).2).index = st'.index)
    ∧ repInvocations p N st ≤ N := by
  have hnn : ¬((N : Int) < 0) := by omega
  have hrw : RepeatP p (N : Int) st = repLoop p false false st.index N [] st := by
    simp [RepeatP, RepeatBaseP, hnn]
  rw [hrw]
  exact ⟨(repLoop_run p st.index hne hfr N [] st).1,
    (repLoop_run p st.index hne hfr N [] st).2, repInvocations_le p N st⟩

/-- Witness for C4: two-bounded repetition of a digit-class parser on
`"1x"` — one success then a failure, all conclusions discharged through
the theorem. -/
theorem greedy_repeat_bound_witness :
    (∃ vs, (RepeatP (OneOfP digitChars) ((2 : Nat) : Int) (ps "1x")).1 = POut.res (Val.list vs))
    ∧ (∃ k st', k ≤ 2 ∧ SuccRun (OneOfP digitChars) k (ps "1x") st'
        ∧ ((RepeatP (OneOfP digitChars) ((2 : Nat) : Int) (ps "1x")).2).index = st'.index)
    ∧ repInvocations (OneOfP digitChars) 2 (ps "1x") ≤ 2 :=
  greedy_repeat_bound (OneOfP digitChars) 2 (ps "1x")
    (fun s e => oneOfP_no_err digitChars s e)
    (fun s h => oneOfP_none_index digitChars s h)

/-- C3 counterexample: on input `"3."` the canonical float parser and the
optimized `Float` parser both yield the value `3.0` but different end
positions (1 versus 2), so their `(value, end-position)` pairs are not
identical on the claimed corpus. -/
theorem float_parity_counterexample :
    CanonicalFloatP (ps "3.") = (POut.res (Val.num 3), ⟨"3.".data, 1⟩)
    ∧ FloatP (ps "3.") = (POut.res (Val.num 3), ⟨"3.".data, 2⟩)
    ∧ CanonicalFloatP (ps "3.") ≠ FloatP (ps "3.") := by
  have h1 : CanonicalFloatP (ps "3.") = (POut.res (Val.num 3), ⟨"3.".data, 1⟩) := by
    with_unfolding_all rfl
  have h2 : FloatP (ps "3.") = (POut.res (Val.num 3), ⟨"3.".data, 2⟩) := by
    with_unfolding_all rfl
  refine ⟨h1, h2, ?_⟩
  intro heq
  rw [h1, h2] at heq
  exact absurd (congrArg (fun x => x.2.index) heq) (by decide)

/-- C3 (amended): over the corpus the two float parsers produce identical
`(value, end-position)` outcomes on `"3.14"`, `"-0.5"`, `"-"` (both fail
at 0) and `"3"`; on `"3."` and `"-3."` the values agree (the integer part
with sign applied) but the end positions differ — the canonical parser
leaves the cursor before the `'.'` while the optimized one leaves it after
the `'.'`. -/
theorem float_parity_corpus :
    CanonicalFloatP (ps "3.14") = FloatP (ps "3.14")
    ∧ CanonicalFloatP (ps "-0.5") = FloatP (ps "-0.5")
    ∧ CanonicalFloatP (ps "-") = FloatP (ps "-")
    ∧ (CanonicalFloatP (ps "-")).1 = POut.res Val.none
    ∧ CanonicalFloatP (ps "3") = FloatP (ps "3")
    ∧ (CanonicalFloatP (ps "3.")).1 = (FloatP (ps "3.")).1
    ∧ ((CanonicalFloatP (ps "3.")).2).index = 1
    ∧ ((FloatP (ps "3.")).2).index = 2
    ∧ (CanonicalFloatP (ps "-3.")).1 = (FloatP (ps "-3.")).1
    ∧ ((CanonicalFloatP (ps "-3.")).2).index = 2
    ∧ ((FloatP (ps "-3.")).2).index = 3 := by
  refine ⟨?_, ?_, ?_, ?_, ?_, ?_, ?_, ?_, ?_, ?_, ?_⟩ <;> with_unfolding_all rfl

/- Evaluation lemmas leading to the lone-dot property of the optimized
`Float` parser. -/

theorem peek?_eq (st : ParseState) : st.peek? = (st.input.drop st.index).head? := by
  unfold ParseState.peek?
  rw [List.head?_drop]

theorem advance_drop (st : ParseState) (c : Char) (tl : List Char)
    (h : st.input.drop st.index = c :: tl) :
    st.advance.input.drop st.advance.index = tl := by
  show st.input.drop (st.index + 1) = tl
  rw [← List.drop_drop, h]
  rfl

theorem stringLoop_hit : ∀ (sc : List Char) (st : ParseState) (suffix : List Char),
    st.input.drop st.index = sc ++ suffix →
    stringLoop sc st = (true, ⟨st.input, st.index + sc.length⟩) := by
  intro sc
  induction sc with
  | nil =>
    intro st suffix h
    cases st
    simp [stringLoop]
  | cons c cs ih =>
    intro st suffix h
    have hp : st.peek? = some c := by rw [peek?_eq, h]; rfl
    have h2 : st.advance.input.drop st.advance.index = cs ++ suffix :=
      advance_drop st c (cs ++ suffix) (by simpa using h)
    have h3 := ih st.advance suffix h2
    simp only [stringLoop, hp, if_true]
    rw [h3]
    simp only [ParseState.advance, List.length_cons, Prod.mk.injEq, ParseState.mk.injEq,
      true_and]
    omega

theorem stringP_hit (s : String) (st : ParseState) (suffix : List Char)
    (h : st.input.drop st.index = s.data ++ suffix) :
    StringP s st = (POut.res (Val.str s), ⟨st.input, st.index + s.data.length⟩) := by
  unfold StringP
  rw [stringLoop_hit s.data st suffix h]

theorem stringP_single_miss (s : String) (c : Char) (hs : s.data = [c]) (st : ParseState)
    (h : ∀ c', st.peek? = some c' → c' ≠ c) :
    StringP s st = (POut.res Val.none, st) := by
  unfold StringP
  rw [hs]
  cases hp : st.peek? with
  | none =>
    simp only [stringLoop, hp]
    rfl
  | some c' =>
    simp only [stringLoop, hp]
    rw [if_neg (h c' hp)]
    rfl

theorem oneOfP_hit (S : List Char) (st : ParseState) (c : Char)
    (hp : st.peek? = some c) (hc : c ∈ S) :
    OneOfP S st = (POut.res (Val.str (String.singleton c)), st.advance) := by
  unfold OneOfP
  rw [hp]
  simp [hc]

theorem oneOfP_miss (S : List Char) (st : ParseState)
    (h : ∀ c, st.peek? = some c → c ∉ S) :
    OneOfP S st = (POut.res Val.none, st) := by
  unfold OneOfP
  cases hp : st.peek? with
  | none => rfl
  | some c => simp [h c hp]

theorem repLoop_oneOf_run (S : List Char) (initial : Nat) :
    ∀ (ds : List Char) (st : ParseState) (suffix : List Char) (acc : List Val) (fuel : Nat),
      st.input.drop st.index = ds ++ suffix →
      (∀ c ∈ ds, c ∈ S) →
      (∀ c, suffix.head? = some c → c ∉ S) →
      ds.length + 1 ≤ fuel →
      repLoop (OneOfP S) false true initial fuel acc st
        = (POut.res (Val.list (acc ++ ds.map (fun c => Val.str (String.singleton c)))),
           ⟨st.input, st.index + ds.length⟩) := by
  intro ds
  induction ds with
  | nil =>
    intro st suffix acc fuel h hds hsuf hfuel
    have hone : OneOfP S st = (POut.res Val.none, st) := by
      refine oneOfP_miss S st ?_
      intro c hc
      rw [peek?_eq] at hc
      simp only [List.nil_append] at h
      rw [h] at hc
      exact hsuf c hc
    rcases fuel with _ | f
    · omega
    · simp only [repLoop, hone, Val.isNone, if_true]
      cases st
      simp
  | cons d ds' ih =>
    intro st suffix acc fuel h hds hsuf hfuel
    have hp : st.peek? = some d := by rw [peek?_eq, h]; rfl
    have hone : OneOfP S st = (POut.res (Val.str (String.singleton d)), st.advance) :=
      oneOfP_hit S st d hp (hds d (by simp))
    rcases fuel with _ | f
    · omega
    · have h2 : st.advance.input.drop st.advance.index = ds' ++ suffix :=
        advance_drop st d (ds' ++ suffix) (by simpa using h)
      have h3 := ih st.advance suffix (acc ++ [Val.str (String.singleton d)]) f h2
        (fun c hc => hds c (by simp [hc])) hsuf (by simp at hfuel ⊢; omega)
      simp only [repLoop, hone, Val.isNone, Bool.false_eq_true, if_false]
      rw [show extendResults acc (Val.str (String.singleton d))
            = acc ++ [Val.str (String.singleton d)] from rfl, h3]
      simp only [ParseState.advance]
      congr 1
      · simp
      · simp only [ParseState.mk.injEq, List.length_cons]
        exact ⟨by trivial, by omega⟩

theorem pyJoin_map_singleton : ∀ ds : List Char,
    pyJoin (ds.map (fun c => Val.str (String.singleton c))) = some ds := by
  intro ds
  induction ds with
  | nil => rfl
  | cons d ds' ih =>
    simp only [List.map_cons, pyJoin, ih, Option.map_some]
    rfl

theorem charSetP_run_succ (S : List Char) (st : ParseState) (ds suffix : List Char)
    (h : st.input.drop st.index = ds ++ suffix) (hne : ds ≠ [])
    (hds : ∀ c ∈ ds, c ∈ S) (hsuf : ∀ c, suffix.head? = some c → c ∉ S) :
    CharSetP S st = (POut.res (Val.str (String.mk ds)), ⟨st.input, st.index + ds.length⟩) := by
  have hfuel : ds.length + 1 ≤ st.input.length - st.index + 1 := by
    have hlen := congrArg List.length h
    rw [List.length_drop, List.length_append] at hlen
    omega
  have hinner : RepeatP (OneOfP S) (-1) st
      = (POut.res (Val.list (ds.map (fun c => Val.str (String.singleton c)))),
         ⟨st.input, st.index + ds.length⟩) := by
    unfold RepeatP RepeatBaseP
    rw [if_pos (by norm_num)]
    simpa using repLoop_oneOf_run S st.index ds st suffix [] _ h hds hsuf hfuel
  unfold CharSetP ConcatenateResultsP TransformP
  rw [hinner]
  rcases ds with _ | ⟨d, ds'⟩
  · exact absurd rfl hne
  · have hj : joinTf (Val.list (List.map (fun c => Val.str (String.singleton c)) (d :: ds')))
        = POut.res (Val.str (String.mk (d :: ds'))) := by
      rw [show List.map (fun c => Val.str (String.singleton c)) (d :: ds')
            = Val.str (String.singleton d)
                :: List.map (fun c => Val.str (String.singleton c)) ds' from rfl]
      simp only [joinTf]
      rw [show pyJoin (Val.str (String.singleton d)
              :: List.map (fun c => Val.str (String.singleton c)) ds')
            = some (d :: ds') from by simpa using pyJoin_map_singleton (d :: ds')]
    simp only [Val.isNone, Bool.false_eq_true, if_false, hj]

theorem charSetP_run_fail (S : List Char) (st : ParseState)
    (h : ∀ c, st.peek? = some c → c ∉ S) :
    CharSetP S st = (POut.res Val.none, st) := by
  have hone := oneOfP_miss S st h
  have hinner : RepeatP (OneOfP S) (-1) st = (POut.res (Val.list []), st) := by
    unfold RepeatP RepeatBaseP
    rw [if_pos (by norm_num)]
    simp only [repLoop, hone, Val.isNone, if_true, Bool.false_eq_true, if_false]
  unfold CharSetP ConcatenateResultsP TransformP
  rw [hinner]
  simp [Val.isNone, joinTf]

theorem decCore_digits (l : List Char) (h : ∀ c ∈ l, c ≠ '.') :
    decCore l = (digitsVal l : ℚ) := by
  unfold decCore
  rw [List.takeWhile_eq_self_iff.2 (fun c hc => by simp [h c hc]),
      List.dropWhile_eq_nil_iff.2 (fun c hc => by simp [h c hc])]
  norm_num [digitsVal]

theorem decimalToRat_digits (ds : List Char) (hds : ∀ c ∈ ds, c ∈ digitChars) :
    decimalToRat (String.mk ds) = (digitsVal ds : ℚ) := by
  have hdot : ∀ c ∈ ds, c ≠ '.' := by
    intro c hc hcon
    subst hcon
    exact absurd (hds _ hc) (by decide)
  rcases ds with _ | ⟨d, ds'⟩
  · norm_num [decimalToRat, decCore, digitsVal]
  · have hd : d ≠ '-' := by
      intro hcon
      subst hcon
      exact absurd (hds '-' (by simp)) (by decide)
    unfold decimalToRat
    split
    · next heq =>
        exfalso
        rw [show (String.mk (d :: ds')).data = d :: ds' from rfl] at heq
        exact hd (by injection heq)
    · exact decCore_digits _ hdot

/-- C6: on an input of an optional `'-'`, one or more digits, then a
literal `'.'` not followed by a digit, the optimized `Float` parser
succeeds with the floating-point value of the integer part alone (sign
applied), and the final cursor sits immediately after the consumed `'.'`
(the position the digit-matching sub-step left it at), not rolled back
before the `'.'`. -/
theorem float_lone_dot (sign : Bool) (ds rest : List Char)
    (hne : ds ≠ [])
    (hds : ∀ c ∈ ds, c ∈ digitChars)
    (hrest : ∀ c, rest.head? = some c → c ∉ digitChars) :
    FloatP ⟨(if sign then ['-'] else []) ++ ds ++ ('.' :: rest), 0⟩
      = (POut.res (Val.num ((if sign then (-1 : ℚ) else 1) * (digitsVal ds : ℚ))),
         ⟨(if sign then ['-'] else []) ++ ds ++ ('.' :: rest),
          (if sign then 1 else 0) + ds.length + 1⟩) := by
  cases sign with
  | true =>
    simp only [if_true]
    have hminus : StringP "-" (⟨['-'] ++ ds ++ ('.' :: rest), 0⟩ : ParseState)
        = (POut.res (Val.str "-"), ⟨['-'] ++ ds ++ ('.' :: rest), 1⟩) :=
      stringP_hit "-" _ (ds ++ '.' :: rest) (by simp)
    have hbig : CharSetP digitChars (⟨['-'] ++ ds ++ ('.' :: rest), 1⟩ : ParseState)
        = (POut.res (Val.str (String.mk ds)), ⟨['-'] ++ ds ++ ('.' :: rest), 1 + ds.length⟩) :=
      charSetP_run_succ digitChars _ ds ('.' :: rest) (by simp) hne hds
        (by intro c hc; simp at hc; subst hc; decide)
    have hdot : StringP "." (⟨['-'] ++ ds ++ ('.' :: rest), 1 + ds.length⟩ : ParseState)
        = (POut.res (Val.str "."), ⟨['-'] ++ ds ++ ('.' :: rest), 1 + ds.length + 1⟩) :=
      stringP_hit "." _ rest (by
        show (['-'] ++ ds ++ ('.' :: rest)).drop (1 + ds.length) = ['.'] ++ rest
        rw [← List.drop_drop]
        simp [List.drop_left])
    have hsmall : CharSetP digitChars
          (⟨['-'] ++ ds ++ ('.' :: rest), 1 + ds.length + 1⟩ : ParseState)
        = (POut.res Val.none, ⟨['-'] ++ ds ++ ('.' :: rest), 1 + ds.length + 1⟩) :=
      charSetP_run_fail digitChars _ (by
        intro c hc
        rw [peek?_eq] at hc
        have hdrop : (['-'] ++ ds ++ ('.' :: rest)).drop (1 + ds.length + 1) = rest := by
          rw [← List.drop_drop]
          rw [show (['-'] ++ ds ++ ('.' :: rest)).drop (1 + ds.length) = '.' :: rest from by
            rw [← List.drop_drop]; simp [List.drop_left]]
          rfl
        rw [hdrop] at hc
        exact hrest c hc)
    simp only [FloatP, hminus, hbig, hdot, hsmall, Val.isNone, Bool.false_eq_true, if_false]
    rw [decimalToRat_digits ds hds]
    rw [mul_comm]
  | false =>
    simp only [Bool.false_eq_true, if_false]
    obtain ⟨d, ds2, hds'⟩ := List.exists_cons_of_ne_nil hne
    have hminus : StringP "-" (⟨[] ++ ds ++ ('.' :: rest), 0⟩ : ParseState)
        = (POut.res Val.none, ⟨[] ++ ds ++ ('.' :: rest), 0⟩) := by
      refine stringP_single_miss "-" '-' rfl _ ?_
      intro c' hc' hcon
      subst hcon
      rw [peek?_eq] at hc'
      rw [hds'] at hc'
      simp only [List.nil_append, List.drop_zero, List.cons_append, List.head?_cons,
        Option.some.injEq] at hc'
      have hdm : d ∈ digitChars := hds d (by rw [hds']; simp)
      rw [hc'] at hdm
      exact absurd hdm (by decide)
    have hbig : CharSetP digitChars (⟨[] ++ ds ++ ('.' :: rest), 0⟩ : ParseState)
        = (POut.res (Val.str (String.mk ds)), ⟨[] ++ ds ++ ('.' :: rest), 0 + ds.length⟩) :=
      charSetP_run_succ digitChars _ ds ('.' :: rest) (by simp) hne hds
        (by intro c hc; simp at hc; subst hc; decide)
    have hdot : StringP "." (⟨[] ++ ds ++ ('.' :: rest), 0 + ds.length⟩ : ParseState)
        = (POut.res (Val.str "."), ⟨[] ++ ds ++ ('.' :: rest), 0 + ds.length + 1⟩) :=
      stringP_hit "." _ rest (by
        show ([] ++ ds ++ ('.' :: rest)).drop (0 + ds.length) = ['.'] ++ rest
        simp [List.drop_left])
    have hsmall : CharSetP digitChars
          (⟨[] ++ ds ++ ('.' :: rest), 0 + ds.length + 1⟩ : ParseState)
        = (POut.res Val.none, ⟨[] ++ ds ++ ('.' :: rest), 0 + ds.length + 1⟩) :=
      charSetP_run_fail digitChars _ (by
        intro c hc
        rw [peek?_eq] at hc
        have hmid : ([] ++ ds ++ ('.' :: rest)).drop (0 + ds.length) = '.' :: rest := by
          simp [List.drop_left]
        have hdrop : ([] ++ ds ++ ('.' :: rest)).drop (0 + ds.length + 1) = rest := by
          rw [← List.drop_drop, hmid]
          rfl
        rw [hdrop] at hc
        exact hrest c hc)
    simp only [FloatP, hminus, hbig, hdot, hsmall, Val.isNone, Bool.false_eq_true, if_false,
      if_true]
    rw [decimalToRat_digits ds hds]
    rw [mul_comm]

/-- Witness for C6: `Float` on `"-7.x"` succeeds with value `-7`, cursor
at index 3 — just past the consumed `'.'`. -/
theorem float_lone_dot_witness :
    (['7'] ≠ ([] : List Char) ∧ (∀ c ∈ ['7'], c ∈ digitChars)
      ∧ (∀ c, (['x'] : List Char).head? = some c → c ∉ digitChars))
    ∧ FloatP (ps "-7.x") = (POut.res (Val.num (-7)), ⟨"-7.x".data, 3⟩) := by
  refine ⟨⟨by simp, by decide, by decide⟩, ?_⟩
  exact (float_lone_dot true ['7'] ['x'] (by simp) (by decide) (by decide)).trans
    (by with_unfolding_all rfl)

/- Selection analysis for the longest-match alternation. -/

theorem pickBest_ge : ∀ (cs : List (Int × Val)) (c : Int × Val), c.1 ≤ (pickBest c cs).1 := by
  intro cs
  induction cs with
  | nil => intro c; simp [pickBest]
  | cons y ys ih =>
    intro c
    unfold pickBest
    by_cases hy : y.1 > c.1
    · rw [if_pos hy]
      exact le_trans (le_of_lt hy) (ih y)
    · rw [if_neg hy]
      exact ih c

theorem pickBest_mem : ∀ (cs : List (Int × Val)) (c : Int × Val), pickBest c cs ∈ c :: cs := by
  intro cs
  induction cs with
  | nil => intro c; simp [pickBest]
  | cons y ys ih =>
    intro c
    unfold pickBest
    by_cases hy : y.1 > c.1
    · rw [if_pos hy]
      have := ih y
      simp only [List.mem_cons] at this ⊢
      tauto
    · rw [if_neg hy]
      have := ih c
      simp only [List.mem_cons] at this ⊢
      tauto

theorem pickBest_of_max : ∀ (cs : List (Int × Val)) (c : Int × Val),
    (∀ y ∈ cs, y.1 ≤ c.1) → pickBest c cs = c := by
  intro cs
  induction cs with
  | nil => intro c _; rfl
  | cons y ys ih =>
    intro c h
    unfold pickBest
    rw [if_neg (by have := h y (by simp); omega)]
    exact ih c (fun z hz => h z (by simp [hz]))

theorem pickBest_max : ∀ (cs : List (Int × Val)) (c : Int × Val),
    ∀ y ∈ c :: cs, y.1 ≤ (pickBest c cs).1 := by
  intro cs
  induction cs with
  | nil => intro c y hy; simp at hy; subst hy; simp [pickBest]
  | cons d ds ih =>
    intro c y hy
    simp only [List.mem_cons] at hy
    unfold pickBest
    by_cases hd : d.1 > c.1
    · rw [if_pos hd]
      rcases hy with hy | hy | hy
      · rw [hy]
        exact le_trans (le_of_lt hd) (pickBest_ge ds d)
      · rw [hy]
        exact pickBest_ge ds d
      · exact ih d y (by simp [hy])
    · rw [if_neg hd]
      rcases hy with hy | hy | hy
      · rw [hy]
        exact pickBest_ge ds c
      · rw [hy]
        exact le_trans (by omega : d.1 ≤ c.1) (pickBest_ge ds c)
      · exact ih c y (by simp [hy])

theorem pickBest_swap : ∀ (ds : List (Int × Val)) (c d : Int × Val),
    (∃ y ∈ ds, c.1 < y.1 ∧ d.1 < y.1) → pickBest c ds = pickBest d ds := by
  intro ds
  induction ds with
  | nil => intro c d h; simp at h
  | cons e es ih =>
    intro c d h
    rcases h with ⟨y, hy, hyc, hyd⟩
    simp only [List.mem_cons] at hy
    unfold pickBest
    by_cases hec : e.1 > c.1 <;> by_cases hed : e.1 > d.1
    · rw [if_pos hec, if_pos hed]
    · rw [if_pos hec, if_neg hed]
      rcases hy with hy | hy
      · subst hy; omega
      · exact ih e d ⟨y, hy, by omega, hyd⟩
    · rw [if_neg hec, if_pos hed]
      rcases hy with hy | hy
      · subst hy; omega
      · exact ih c e ⟨y, hy, hyc, by omega⟩
    · rw [if_neg hec, if_neg hed]
      rcases hy with hy | hy
      · subst hy; omega
      · exact ih c d ⟨y, hy, hyc, hyd⟩

theorem pickBest_first : ∀ (cs : List (Int × Val)) (c : Int × Val),
    ∃ l₁ l₂, c :: cs = l₁ ++ (pickBest c cs) :: l₂
      ∧ ∀ y ∈ l₁, y.1 < (pickBest c cs).1 := by
  intro cs
  induction cs with
  | nil => intro c; exact ⟨[], [], by simp [pickBest], by simp⟩
  | cons d ds ih =>
    intro c
    unfold pickBest
    by_cases hd : d.1 > c.1
    · rw [if_pos hd]
      rcases ih d with ⟨l₁, l₂, hsplit, hlt⟩
      refine ⟨c :: l₁, l₂, by rw [List.cons_append, ← hsplit], ?_⟩
      intro y hy
      simp only [List.mem_cons] at hy
      rcases hy with hy | hy
      · subst hy
        exact lt_of_lt_of_le hd (pickBest_ge ds d)
      · exact hlt y hy
    · rw [if_neg hd]
      rcases ih c with ⟨l₁, l₂, hsplit, hlt⟩
      cases l₁ with
      | nil =>
        simp only [List.nil_append] at hsplit
        injection hsplit with h1 h2
        refine ⟨[], d :: ds, ?_, by simp⟩
        rw [← h1]
        rfl
      | cons a l₁' =>
        injection hsplit with h1 h2
        subst h1
        refine ⟨c :: d :: l₁', l₂, congrArg (fun t => c :: d :: t) h2, ?_⟩
        intro y hy
        have hc : c.1 < (pickBest c ds).1 := hlt c (by simp)
        simp only [List.mem_cons] at hy
        rcases hy with hy | hy | hy
        · subst hy; exact hc
        · subst hy; omega
        · exact hlt y (by simp [hy])

/-- The sort-reverse-scan pipeline, applied to an already prepared list
(`selectBest` is this after the stable sort). -/
def g0 (m : List (Int × Val)) : Int × Val :=
  match m.reverse with
  | [] => (0, Val.none)
  | b :: w => bestLoop b w

theorem bestLoop_key : ∀ (w : List (Int × Val)) (b : Int × Val),
    List.Pairwise (fun a b => b.1 ≤ a.1) (b :: w) → (bestLoop b w).1 = b.1 := by
  intro w
  induction w with
  | nil => intro b _; rfl
  | cons y ys ih =>
    intro b hp
    unfold bestLoop
    by_cases hy : y.1 < b.1
    · rw [if_pos hy]
    · rw [if_neg hy]
      have h1 : y.1 ≤ b.1 := (List.pairwise_cons.1 hp).1 y (by simp)
      have h2 : (bestLoop y ys).1 = y.1 := ih y (List.pairwise_cons.1 hp).2
      omega

theorem bestLoop_append : ∀ (w : List (Int × Val)) (b c : Int × Val),
    List.Pairwise (fun a b => b.1 ≤ a.1) (b :: w) →
    (∀ z ∈ b :: w, c.1 ≤ z.1) →
    bestLoop b (w ++ [c]) = if c.1 < (bestLoop b w).1 then bestLoop b w else c := by
  intro w
  induction w with
  | nil =>
    intro b c _ _
    rfl
  | cons z zs ih =>
    intro b c hp hc
    by_cases hz : z.1 < b.1
    · have hcb : c.1 < b.1 := lt_of_le_of_lt (hc z (by simp)) hz
      simp only [List.cons_append, bestLoop]
      rw [if_pos hz, if_pos hz, if_pos hcb]
    · simp only [List.cons_append, bestLoop]
      rw [if_neg hz, if_neg hz]
      exact ih z c (List.pairwise_cons.1 hp).2 (fun u hu => hc u (by
        simp only [List.mem_cons] at hu ⊢
        tauto))

theorem g0_cons_of_lt (c : Int × Val) (m : List (Int × Val))
    (hs : List.Sorted keyLe (c :: m)) (hm : m ≠ [])
    (hex : ∃ y ∈ m, c.1 < y.1) :
    g0 (c :: m) = g0 m := by
  rcases hrev : m.reverse with _ | ⟨b, w⟩
  · exact absurd (List.reverse_eq_nil_iff.1 hrev) hm
  · have hrev2 : (c :: m).reverse = b :: (w ++ [c]) := by
      rw [List.reverse_cons, hrev]
      rfl
    have hdesc : List.Pairwise (fun a b => b.1 ≤ a.1) (b :: w) := by
      rw [← hrev]
      exact List.pairwise_reverse.2 (List.pairwise_cons.1 hs).2
    have hcall : ∀ z ∈ b :: w, c.1 ≤ z.1 := by
      intro z hz
      have hzm : z ∈ m := by
        rw [← List.mem_reverse, hrev]
        exact hz
      exact (List.pairwise_cons.1 hs).1 z hzm
    unfold g0
    rw [hrev2, hrev]
    show bestLoop b (w ++ [c]) = bestLoop b w
    rw [bestLoop_append w b c hdesc hcall]
    rcases hex with ⟨y, hy, hcy⟩
    have hyb : y.1 ≤ b.1 := by
      have hym : y ∈ b :: w := by
        rw [← hrev, List.mem_reverse]
        exact hy
      rcases List.mem_cons.1 hym with h | h
      · rw [h]
      · exact (List.pairwise_cons.1 hdesc).1 y h
    rw [if_pos (by rw [bestLoop_key w b hdesc]; omega)]

theorem g0_cons_of_max (c : Int × Val) (m : List (Int × Val))
    (hs : List.Sorted keyLe (c :: m))
    (hall : ∀ z ∈ m, z.1 ≤ c.1) :
    g0 (c :: m) = c := by
  rcases hrev : m.reverse with _ | ⟨b, w⟩
  · have hm : m = [] := List.reverse_eq_nil_iff.1 hrev
    subst hm
    rfl
  · have hrev2 : (c :: m).reverse = b :: (w ++ [c]) := by
      rw [List.reverse_cons, hrev]
      rfl
    have hdesc : List.Pairwise (fun a b => b.1 ≤ a.1) (b :: w) := by
      rw [← hrev]
      exact List.pairwise_reverse.2 (List.pairwise_cons.1 hs).2
    have hcall : ∀ z ∈ b :: w, c.1 ≤ z.1 := by
      intro z hz
      have hzm : z ∈ m := by
        rw [← List.mem_reverse, hrev]
        exact hz
      exact (List.pairwise_cons.1 hs).1 z hzm
    have hbm : b ∈ m := by
      rw [← List.mem_reverse, hrev]
      simp
    unfold g0
    rw [hrev2]
    show bestLoop b (w ++ [c]) = c
    rw [bestLoop_append w b c hdesc hcall]
    rw [if_neg (by rw [bestLoop_key w b hdesc]; have := hall b hbm; omega)]

theorem g0_orderedInsert : ∀ (m : List (Int × Val)), List.Sorted keyLe m →
    ∀ (c : Int × Val),
      ((∀ z ∈ m, z.1 ≤ c.1) → g0 (List.orderedInsert keyLe c m) = c)
      ∧ ((∃ z ∈ m, c.1 < z.1) → g0 (List.orderedInsert keyLe c m) = g0 m) := by
  intro m
  induction m with
  | nil =>
    intro _ c
    constructor
    · intro _; rfl
    · intro h; simp at h
  | cons y ys ih =>
    intro hs c
    have hys : List.Sorted keyLe ys := (List.pairwise_cons.1 hs).2
    by_cases hcy : keyLe c y
    · have hoi : List.orderedInsert keyLe c (y :: ys) = c :: y :: ys := by
        unfold List.orderedInsert
        rw [if_pos hcy]
      have hsort2 : List.Sorted keyLe (c :: y :: ys) := by
        refine List.pairwise_cons.2 ⟨?_, hs⟩
        intro z hz
        rcases List.mem_cons.1 hz with h | h
        · rw [h]; exact hcy
        · exact le_trans hcy ((List.pairwise_cons.1 hs).1 z h)
      constructor
      · intro hall
        rw [hoi]
        exact g0_cons_of_max c (y :: ys) hsort2 hall
      · intro hex
        rw [hoi]
        exact g0_cons_of_lt c (y :: ys) hsort2 (by simp) hex
    · have hyc : y.1 < c.1 := by
        simp only [keyLe, not_le] at hcy
        exact hcy
      have hoi : List.orderedInsert keyLe c (y :: ys) = y :: List.orderedInsert keyLe c ys := by
        rw [show List.orderedInsert keyLe c (y :: ys)
              = if keyLe c y then c :: y :: ys else y :: List.orderedInsert keyLe c ys from rfl,
            if_neg hcy]
      by_cases hysnil : ys = []
      · subst hysnil
        constructor
        · intro _
          rw [hoi]
          show g0 [y, c] = c
          unfold g0 bestLoop
          simp only [List.reverse_cons, List.reverse_nil, List.nil_append,
            List.cons_append, List.singleton_append]
          rw [if_pos hyc]
        · intro hex
          rcases hex with ⟨z, hz, hcz⟩
          rcases List.mem_cons.1 hz with h | h
          · exfalso; rw [h] at hcz; omega
          · simp at h
      · have hsOI : List.Sorted keyLe (List.orderedInsert keyLe c ys) :=
          List.Sorted.orderedInsert c ys hys
        have hmemOI : ∀ z ∈ List.orderedInsert keyLe c ys, keyLe y z := by
          intro z hz
          rcases (List.mem_orderedInsert keyLe).1 hz with h | h
          · rw [h]; exact le_of_lt hyc
          · exact (List.pairwise_cons.1 hs).1 z h
        have hsort2 : List.Sorted keyLe (y :: List.orderedInsert keyLe c ys) :=
          List.pairwise_cons.2 ⟨hmemOI, hsOI⟩
        have hOIne : List.orderedInsert keyLe c ys ≠ [] := by
          intro hcon
          have := congrArg List.length hcon
          rw [List.orderedInsert_length] at this
          simp at this
        have hcOI : c ∈ List.orderedInsert keyLe c ys :=
          (List.mem_orderedInsert keyLe).2 (Or.inl rfl)
        have hfront : g0 (y :: List.orderedInsert keyLe c ys)
            = g0 (List.orderedInsert keyLe c ys) :=
          g0_cons_of_lt y _ hsort2 hOIne ⟨c, hcOI, hyc⟩
        constructor
        · intro hall
          rw [hoi, hfront]
          exact (ih hys c).1 (fun z hz => hall z (by simp [hz]))
        · intro hex
          rcases hex with ⟨z, hz, hcz⟩
          have hzys : z ∈ ys := by
            rcases List.mem_cons.1 hz with h | h
            · exfalso; rw [h] at hcz; omega
            · exact h
          rw [hoi, hfront, (ih hys c).2 ⟨z, hzys, hcz⟩]
          exact (g0_cons_of_lt y ys hs hysnil ⟨z, hzys, by omega⟩).symm

theorem selectBest_eq_pickBest : ∀ (cs : List (Int × Val)) (c : Int × Val),
    selectBest (c :: cs) = pickBest c cs := by
  intro cs
  induction cs with
  | nil => intro c; rfl
  | cons d ds ih =>
    intro c
    have hM : List.Sorted keyLe (List.insertionSort keyLe (d :: ds)) :=
      List.sorted_insertionSort keyLe (d :: ds)
    have hsel : selectBest (c :: d :: ds)
        = g0 (List.orderedInsert keyLe c (List.insertionSort keyLe (d :: ds))) := rfl
    by_cases hall : ∀ z ∈ List.insertionSort keyLe (d :: ds), z.1 ≤ c.1
    · rw [hsel, (g0_orderedInsert _ hM c).1 hall]
      exact (pickBest_of_max (d :: ds) c
        (fun z hz => hall z ((List.mem_insertionSort keyLe).2 hz))).symm
    · push_neg at hall
      rcases hall with ⟨z, hzM, hzc⟩
      have hz : z ∈ d :: ds := (List.mem_insertionSort keyLe).1 hzM
      rw [hsel, (g0_orderedInsert _ hM c).2 ⟨z, hzM, hzc⟩]
      have hg : g0 (List.insertionSort keyLe (d :: ds)) = selectBest (d :: ds) := rfl
      rw [hg, ih d]
      rw [show pickBest c (d :: ds)
            = if d.1 > c.1 then pickBest d ds else pickBest c ds from rfl]
      by_cases hdc : d.1 > c.1
      · rw [if_pos hdc]
      · rw [if_neg hdc]
        have hzds : z ∈ ds := by
          rcases List.mem_cons.1 hz with h | h
          · exfalso; rw [h] at hzc; omega
          · exact h
        exact (pickBest_swap ds c d ⟨z, hzds, hzc, by omega⟩).symm

theorem stringLoop_input : ∀ (sc : List Char) (st : ParseState),
    ((stringLoop sc st).2).input = st.input := by
  intro sc
  induction sc with
  | nil => intro st; rfl
  | cons c cs ih =>
    intro st
    cases hp : st.peek? with
    | none => simp only [stringLoop, hp]
    | some c' =>
      simp only [stringLoop, hp]
      by_cases hc : c' = c
      · rw [if_pos hc]
        exact ih st.advance
      · rw [if_neg hc]

theorem stringP_input (s : String) (st : ParseState) :
    ((StringP s st).2).input = st.input := by
  unfold StringP
  rcases hsl : stringLoop s.data st with ⟨b, st'⟩
  have hin : st'.input = st.input := by
    have := stringLoop_input s.data st
    rw [hsl] at this
    exact this
  cases b
  · exact hin
  · exact hin

theorem transformP_input (inner : ParseFn) (tf : Val → POut)
    (hin : ∀ s, ((inner s).2).input = s.input) (st : ParseState) :
    ((TransformP inner tf st).2).input = st.input := by
  rcases hi : inner st with ⟨o, st2⟩
  have h2 : st2.input = st.input := by
    have := hin st
    rw [hi] at this
    exact this
  cases o with
  | err e => simp only [TransformP, hi]; exact h2
  | res r =>
    by_cases hr : r.isNone
    · simp only [TransformP, hi, hr, if_true]
      exact h2
    · cases htr : tf r with
      | res v =>
        simp only [TransformP, hi, hr, Bool.false_eq_true, if_false, htr]
        exact h2
      | err e =>
        simp only [TransformP, hi, hr, Bool.false_eq_true, if_false, htr]
        exact h2

theorem longLoop_gather (st : ParseState) :
    ∀ (parsers : List ParseFn) (acc : List (Int × Val)),
      (∀ p ∈ parsers, ∀ s, ((p s).2).input = s.input) →
      (∀ p ∈ parsers, ∀ e, (p st).1 ≠ POut.err e) →
      longLoop st.index parsers acc st
        = match acc ++ candidates st parsers with
          | [] => (POut.res Val.none, st.reset st.index)
          | c :: cs =>
            (POut.res (selectBest (c :: cs)).2,
             st.reset ((st.index : Int) + (selectBest (c :: cs)).1).toNat) := by
  intro parsers
  induction parsers with
  | nil =>
    intro acc _ _
    simp only [candidates, List.filterMap_nil, List.append_nil]
    rfl
  | cons p rest ih =>
    intro acc hIP hNE
    rcases hp : p st with ⟨o, st2⟩
    cases o with
    | err e =>
      exact absurd (show (p st).1 = POut.err e by rw [hp]) (hNE p (by simp) e)
    | res r =>
      have hinput : st2.input = st.input := by
        have := hIP p (by simp) st
        rw [hp] at this
        exact this
      have hst2 : st2.reset st.index = st := by
        show (⟨st2.input, st.index⟩ : ParseState) = st
        rw [hinput]
      by_cases hr : r.isNone
      · have hcand : candidates st (p :: rest) = candidates st rest := by
          simp [candidates, List.filterMap_cons, hp, hr]
        simp only [longLoop, hp, hr, if_true, hst2]
        rw [ih acc (fun q hq => hIP q (by simp [hq])) (fun q hq => hNE q (by simp [hq]))]
        rw [hcand]
      · have hcand : candidates st (p :: rest)
            = ((st2.index : Int) - (st.index : Int), r) :: candidates st rest := by
          simp [candidates, List.filterMap_cons, hp, hr]
        simp only [longLoop, hp, hr, Bool.false_eq_true, if_false, hst2]
        rw [ih (acc ++ [((st2.index : Int) - (st.index : Int), r)])
          (fun q hq => hIP q (by simp [hq])) (fun q hq => hNE q (by simp [hq]))]
        rw [hcand]
        simp only [List.append_assoc, List.singleton_append]

/-- C2: a longest-match alternation over sub-parsers that preserve the
input, raise no error at the starting state, and never move the cursor
backwards on success, returns — among the sub-parsers that succeed from
the starting position — the result of the candidate with the greatest
consumed length, the earliest declared one on ties (`pickBest` walks the
candidates in declaration order and replaces its best only on a strictly
greater length); the final cursor position is the start plus that maximal
consumed length. -/
theorem longest_alternative_stable (parsers : List ParseFn) (st : ParseState)
    (hIP : ∀ p ∈ parsers, ∀ s, ((p s).2).input = s.input)
    (hNE : ∀ p ∈ parsers, ∀ e, (p st).1 ≠ POut.err e)
    (hMono : ∀ p ∈ parsers, ∀ r st2, p st = (POut.res r, st2) → r ≠ Val.none →
      st.index ≤ st2.index)
    (c : Int × Val) (cs : List (Int × Val))
    (hc : candidates st parsers = c :: cs) :
    LongestAlternativeP parsers st
      = (POut.res (pickBest c cs).2,
         st.reset ((st.index : Int) + (pickBest c cs).1).toNat)
    ∧ 0 ≤ (pickBest c cs).1
    ∧ (((LongestAlternativeP parsers st).2).index : Int) = st.index + (pickBest c cs).1
    ∧ (∀ y ∈ c :: cs, y.1 ≤ (pickBest c cs).1)
    ∧ ∃ l₁ l₂, c :: cs = l₁ ++ (pickBest c cs) :: l₂
        ∧ ∀ y ∈ l₁, y.1 < (pickBest c cs).1 := by
  have h1 : LongestAlternativeP parsers st
      = (POut.res (pickBest c cs).2,
         st.reset ((st.index : Int) + (pickBest c cs).1).toNat) := by
    unfold LongestAlternativeP
    rw [longLoop_gather st parsers [] hIP hNE]
    simp only [List.nil_append, hc]
    show (POut.res (selectBest (c :: cs)).2,
      st.reset ((st.index : Int) + (selectBest (c :: cs)).1).toNat) = _
    rw [selectBest_eq_pickBest]
  have hmem : pickBest c cs ∈ c :: cs := pickBest_mem cs c
  have hnn : 0 ≤ (pickBest c cs).1 := by
    rw [← hc] at hmem
    unfold candidates at hmem
    rcases List.mem_filterMap.1 hmem with ⟨p, hpmem, hpeq⟩
    rcases hps : p st with ⟨o, st2⟩
    rw [hps] at hpeq
    cases o with
    | err e => simp at hpeq
    | res r =>
      by_cases hr : r.isNone
      · simp [hr] at hpeq
      · simp only [hr, Bool.false_eq_true, if_false, Option.some.injEq] at hpeq
        have hmono := hMono p hpmem r st2 hps
          ((Val.isNone_eq_false_iff r).1 (by simpa using hr))
        rw [← hpeq]
        simp only
        omega
  refine ⟨h1, hnn, ?_, pickBest_max cs c, pickBest_first cs c⟩
  rw [h1]
  simp only [ParseState.reset_index]
  omega

/-- First tagged `"ab"` literal for the C2 witness (the spec's branch A). -/
def wA : ParseFn := TransformP (StringP "ab") (fun _ => POut.res (Val.str "A"))

/-- Second tagged `"ab"` literal for the C2 witness (the spec's branch B). -/
def wB : ParseFn := TransformP (StringP "ab") (fun _ => POut.res (Val.str "B"))

/-- Witness for C2, the spec's own stability example: branches A and B
both match `"ab"` with consumed length 2; the earlier-declared A's result
is returned and the cursor ends at 2. -/
theorem longest_alternative_stable_witness :
    candidates (ps "ab") [wA, wB] = [(2, Val.str "A"), (2, Val.str "B")]
    ∧ LongestAlternativeP [wA, wB] (ps "ab") = (POut.res (Val.str "A"), ⟨"ab".data, 2⟩) := by
  refine ⟨rfl, ?_⟩
  have h := (longest_alternative_stable [wA, wB] (ps "ab")
    (by
      intro p hp s
      simp only [List.mem_cons, List.mem_singleton] at hp
      rcases hp with hp | hp | hp
      · subst hp
        exact transformP_input (StringP "ab") _ (fun s' => stringP_input "ab" s') s
      · subst hp
        exact transformP_input (StringP "ab") _ (fun s' => stringP_input "ab" s') s
      · simp at hp)
    (by
      intro p hp e
      simp only [List.mem_cons, List.mem_singleton] at hp
      rcases hp with hp | hp | hp
      · subst hp
        rw [show (wA (ps "ab")).1 = POut.res (Val.str "A") from rfl]
        simp
      · subst hp
        rw [show (wB (ps "ab")).1 = POut.res (Val.str "B") from rfl]
        simp
      · simp at hp)
    (by
      intro p hp r st2 heq hr
      simp only [List.mem_cons, List.mem_singleton] at hp
      rcases hp with hp | hp | hp
      · subst hp
        rw [show wA (ps "ab")
              = (POut.res (Val.str "A"), (⟨"ab".data, 2⟩ : ParseState)) from rfl] at heq
        injection heq with h1 h2
        rw [← h2]
        simp [ps]
      · subst hp
        rw [show wB (ps "ab")
              = (POut.res (Val.str "B"), (⟨"ab".data, 2⟩ : ParseState)) from rfl] at heq
        injection heq with h1 h2
        rw [← h2]
        simp [ps]
      · simp at hp)
    (2, Val.str "A") [(2, Val.str "B")] rfl).1
  exact h

end PComb

